import Mathlib

/-!
Shallow embedding of the word2vec CBOW trainer in `src/main.rs`
(repository lucas-montes/wrod2vec), together with theorems settling the
frozen specification claims.

Modelling conventions:
* `usize` indices and counts become `Nat`; `f32` scalars become elements of
  an arbitrary `LinearOrderedField` (instantiated at `ℚ` for executable
  witnesses and at `ℝ` where the real exponential is needed), the standard
  exact idealisation of the float arithmetic in the source.
* flattened `Vec<f32>` parameter matrices that are mutated in place become
  functions `ℕ → α` updated by explicit point writes, so every `+=` loop in
  the source is a fold of point updates;
* the thread-local random number generator becomes an explicit parameter:
  the multiset drawn by `choose_multiple` is a list argument, and the
  stream of normal samples drawn in `create_matrices` is a function
  `ℕ → α` indexed by draw number;
* a slice access that can panic becomes an `Option`-valued lookup, `none`
  standing for the out-of-bounds panic.
-/

/-- Point update of a flattened matrix modelled as a function: the write
`a[p] = x` performed by the Rust indexed assignments. -/
def updAt {α : Type} (h : ℕ → α) (p : ℕ) (x : α) : ℕ → α :=
  fun q => if q = p then x else h q

/-- The loop `for c in 0..D { a[c + off] += delta[c] }` that appears (with
various `off` and `delta`) in `train` of `src/main.rs`, as a fold of point
updates over `List.range D`. -/
def addAtRange {α : Type} [LinearOrderedField α] (D off : ℕ) (delta : ℕ → α)
    (h : ℕ → α) : ℕ → α :=
  (List.range D).foldl (fun acc c => updAt acc (c + off) (acc (c + off) + delta c)) h

/-- `CBOWParams::get_random_indices` from `src/main.rs` (lines 122-129).
The random draw `corpus.choose_multiple(&mut rng, self.random_samples)` is
modelled by the explicit argument `chosen` (the multiset of corpus entries
the generator picked); the deterministic remainder of the function is the
filter `.filter(|x| x.eq(target))`, which keeps exactly the drawn ids that
are equal to the true target. -/
def get_random_indices (target : ℕ) (chosen : List ℕ) : List ℕ :=
  chosen.filter (fun x => x == target)

/-- Rust `slice::windows(n)`: all contiguous sub-slices of length `n`, in
order. For `n` larger than the slice length there are no windows. (The
source only ever calls this with `n = window_size = 2*w+1 ≥ 1`, so the
`n = 0` panic of the Rust method is out of scope.) -/
def windowsList {α : Type} (n : ℕ) (l : List α) : List (List α) :=
  (List.range (l.length + 1 - n)).map (fun i => (l.drop i).take n)

/-- `CBOWParams::generate_pairs` from `src/main.rs` (lines 131-141): slide
a window of length `window_size` over the corpus; in each window,
`window.remove(self.target)` extracts the element at offset `target`
(becoming the pair's target id) and leaves the remaining elements, in
order, as the context. `Vec::remove` is `List.eraseIdx` plus the removed
element, which is in bounds in every reachable call because
`target < window_size`; the `getD` default is never consulted there. -/
def generate_pairs (window_size target : ℕ) (corpus : List ℕ) :
    List (List ℕ × ℕ) :=
  (windowsList window_size corpus).map
    (fun w => (w.eraseIdx target, w.getD target 0))

/-- Association-list model of the `HashMap<String, usize>` field
`words_map` of `CorpusValues`: lookup by key, entries kept in insertion
order. -/
def lookupIn : List (String × ℕ) → String → Option ℕ
  | [], _ => none
  | (a, j) :: t, w => if a = w then some j else lookupIn t w

/-- The loop body of `CorpusValues::populate` from `src/main.rs`
(lines 25-42): for each whitespace token, skip it when it is a stop word;
otherwise push its existing id onto the encoded corpus when the vocabulary
already contains it, and otherwise insert it with the next sequential id
`i` and push that id. State is (vocabulary, encoded corpus, next id). -/
def populateGo (stop : List String) :
    List String → List (String × ℕ) → List ℕ → ℕ → List (String × ℕ) × List ℕ
  | [], m, v, _ => (m, v)
  | w :: ws, m, v, i =>
    if w ∈ stop then populateGo stop ws m v i
    else
      match lookupIn m w with
      | some j => populateGo stop ws m (v ++ [j]) i
      | none => populateGo stop ws (m ++ [(w, i)]) (v ++ [i]) (i + 1)

/-- `CorpusValues::new().populate(...)`: run the tokenizer loop from the
empty vocabulary, the empty encoded corpus and next id `0`. The English
stop-word list of the external `stop_words` crate is the explicit `stop`
parameter. -/
def populate (stop : List String) (words : List String) :
    List (String × ℕ) × List ℕ :=
  populateGo stop words [] [] 0

/-- ASCII punctuation, the character class `[[:punct:]]` matched by the
regex in `parse_corpus`: codes 33-47, 58-64, 91-96 and 123-126. -/
def is_punct (c : Char) : Bool :=
  (33 ≤ c.toNat && c.toNat ≤ 47) || (58 ≤ c.toNat && c.toNat ≤ 64) ||
    (91 ≤ c.toNat && c.toNat ≤ 96) || (123 ≤ c.toNat && c.toNat ≤ 126)

/-- The cleaning in `parse_corpus`: `make_ascii_lowercase` followed by
`re.replace_all(&corpus, "")` with the punctuation regex, i.e. lowercase
every character then delete every punctuation character. (`Char.toLower`
lowercases exactly the ASCII range, like `make_ascii_lowercase`.) -/
def parse_clean (s : String) : List Char :=
  (s.toList.map Char.toLower).filter (fun c => !(is_punct c))

/-- Worker for `split_words`: scan the characters, accumulating the
current word reversed in `acc`; whitespace ends the current word, and
empty fragments (consecutive whitespace) are skipped. -/
def split_wordsGo : List Char → List Char → List String
  | [], acc => if acc.isEmpty then [] else [String.mk acc.reverse]
  | c :: cs, acc =>
    if c.isWhitespace then
      if acc.isEmpty then split_wordsGo cs []
      else String.mk acc.reverse :: split_wordsGo cs []
    else split_wordsGo cs (c :: acc)

/-- Rust `str::split_whitespace`: split at whitespace, discarding empty
fragments. -/
def split_words (cs : List Char) : List String :=
  split_wordsGo cs []

/-- `parse_corpus` from `src/main.rs` (lines 144-149), with the external
stop-word list as parameter: clean the text and feed its tokens to
`CorpusValues::populate`. -/
def parse_corpus (stop : List String) (corpus : String) :
    List (String × ℕ) × List ℕ :=
  populate stop (split_words (parse_clean corpus))

/-- Specification-side helper: the retained tokens, i.e. those that are
not stop words (the tokens the `populate` loop does not skip). -/
def retainedBy (stop : List String) : List String → List String
  | [] => []
  | w :: ws => if w ∈ stop then retainedBy stop ws else w :: retainedBy stop ws

/-- Specification-side helper: pair the words of a list with sequential
ids starting at `i`. -/
def withIds : List String → ℕ → List (String × ℕ)
  | [], _ => []
  | w :: ws, i => (w, i) :: withIds ws (i + 1)

/-- Specification-side helper: the words of a list not yet in `seen`, in
order of first occurrence (first-occurrence deduplication). -/
def newWords (seen : List String) : List String → List String
  | [] => []
  | w :: ws => if w ∈ seen then newWords seen ws else w :: newWords (seen ++ [w]) ws

/-- Specification-side helper: index of the first occurrence of a word in
a list. -/
def idxIn : List String → String → ℕ
  | [], _ => 0
  | a :: t, w => if a = w then 0 else idxIn t w + 1

/-- The inner iterator of `get_context_embedding` (`src/main.rs` lines
151-166): `context_indices.iter().map(|ci| embeddings[position + ci *
embeddings_dimension]).sum()`, with the possibly panicking slice index
modelled as `List.get?`; `none` stands for the out-of-bounds panic. -/
def sumRowOpt {α : Type} [LinearOrderedField α] (embeddings : List α)
    (D pos : ℕ) : List ℕ → Option α
  | [] => some 0
  | ci :: rest =>
    match embeddings.get? (pos + ci * D) with
    | none => none
    | some x =>
      match sumRowOpt embeddings D pos rest with
      | none => none
      | some s => some (x + s)

/-- The outer loop of `get_context_embedding`: one summed entry per
position, `none` as soon as any inner access is out of bounds. -/
def collectRows {α : Type} [LinearOrderedField α] (context : List ℕ)
    (D : ℕ) (embeddings : List α) : List ℕ → Option (List α)
  | [] => some []
  | pos :: rest =>
    match sumRowOpt embeddings D pos context with
    | none => none
    | some x =>
      match collectRows context D embeddings rest with
      | none => none
      | some v => some (x :: v)

/-- `get_context_embedding` from `src/main.rs` (lines 151-166): for each
`position` in `0..embeddings_dimension`, sum the entries
`embeddings[position + ci * embeddings_dimension]` over all context ids
`ci` (a plain sum, per the TODO in the source). -/
def get_context_embedding {α : Type} [LinearOrderedField α]
    (context_indices : List ℕ) (embeddings_dimension : ℕ)
    (embeddings : List α) : Option (List α) :=
  collectRows context_indices embeddings_dimension embeddings
    (List.range embeddings_dimension)

/-- `sigmoid` from `src/main.rs` (lines 168-170): the logistic function
`1.0 / (1.0 + (-x).exp())`, with the `f32` arithmetic idealised over the
reals. -/
noncomputable def sigmoid (x : ℝ) : ℝ :=
  1 / (1 + Real.exp (-x))

/-- The positive-update section of `train` (`src/main.rs` lines 186-199)
for one training pair: given the context embedding `neu1`, compute
`target_l2 = target * D`, the logit
`f = Σ_i neu1[i] * hidden_layer[i + target_l2]`, the gradient scale
`g = (1.0 - sigmoid(f)) * learning_rate`, initialise the error buffer
`neu1e[c] = g * hidden_layer[c + target_l2]` from the pre-update output
row, and only then run
`hidden_layer[c + target_l2] += g * neu1[c]` for `c in 0..D`. The sigmoid
nonlinearity is passed as the function parameter `sg` (the source calls
the global `sigmoid`); the result is the pair (error buffer, updated
output matrix). -/
def positiveUpdate {α : Type} [LinearOrderedField α] (sg : α → α) (D : ℕ)
    (learning_rate : α) (neu1 : ℕ → α) (target : ℕ)
    (hidden_layer : ℕ → α) : (ℕ → α) × (ℕ → α) :=
  let target_l2 := target * D
  let f := ((List.range D).map (fun i => neu1 i * hidden_layer (i + target_l2))).sum
  let g := (1 - sg f) * learning_rate
  let neu1e := fun c => g * hidden_layer (c + target_l2)
  (neu1e, addAtRange D target_l2 (fun c => g * neu1 c) hidden_layer)

/-- The backpropagation section of `train` (`src/main.rs` lines 218-222):
for every context id `index` in order, run
`input_layer[c + index * embeddings_dimension] += neu1e[c]` for every
dimension `c in 0..D`. -/
def backwardUpdate {α : Type} [LinearOrderedField α] (D : ℕ)
    (context : List ℕ) (neu1e : ℕ → α) (input_layer : ℕ → α) : ℕ → α :=
  context.foldl (fun acc index => addAtRange D (index * D) neu1e acc) input_layer

/-- `CBOWParams::create_matrices` from `src/main.rs` (lines 106-120), with
the normal sampler's draw stream as the explicit parameter `sample`
(`sample k` models the `k`-th value drawn from the `Normal` distribution
by the flat-mapped closures): the input matrix is `vocab_size` rows of
`embeddings_dimension` freshly drawn entries, flattened; the output
matrix is `vec![0.0; vocab_size * embeddings_dimension]`. -/
def create_matrices {α : Type} [LinearOrderedField α]
    (vocab_size embeddings_dimension : ℕ) (sample : ℕ → α) :
    List α × List α :=
  (((List.range vocab_size).map
      (fun i => (List.range embeddings_dimension).map
        (fun j => sample (i * embeddings_dimension + j)))).join,
   List.replicate (vocab_size * embeddings_dimension) 0)

/-- Concrete embedding matrix of the `test_get_context_embedding` fixture
in `src/main.rs`, five rows of four entries, as exact rationals. -/
def fixtureEmb : List ℚ :=
  [1/10, 1/10, 1/10, 1/10,
   1/10, 2/10, 1/10, 1/10,
   1, 1, 1, 1,
   1/10, 1/10, 3/10, 1/10,
   4/10, 1/10, 1/10, 1/10]

/- ### Theorems -/

theorem withIds_append (s t : List String) (i : ℕ) :
    withIds (s ++ t) i = withIds s i ++ withIds t (i + s.length) := by
  induction s generalizing i with
  | nil => simp [withIds]
  | cons a s ih =>
    show (a, i) :: withIds (s ++ t) (i + 1)
        = (a, i) :: (withIds s (i + 1) ++ withIds t (i + (s.length + 1)))
    rw [ih]
    have h2 : i + 1 + s.length = i + (s.length + 1) := by omega
    rw [h2]

theorem lookupIn_withIds (seen : List String) (w : String) (i : ℕ) :
    lookupIn (withIds seen i) w
      = if w ∈ seen then some (i + idxIn seen w) else none := by
  induction seen generalizing i with
  | nil => simp [withIds, lookupIn]
  | cons a t ih =>
    by_cases ha : a = w
    · subst ha
      simp [withIds, lookupIn, idxIn]
    · show (if a = w then some i else lookupIn (withIds t (i + 1)) w)
          = if w ∈ a :: t then some (i + idxIn (a :: t) w) else none
      rw [if_neg ha, ih]
      by_cases hw : w ∈ t
      · rw [if_pos hw, if_pos (List.mem_cons_of_mem a hw)]
        show some (i + 1 + idxIn t w) = some (i + (if a = w then 0 else idxIn t w + 1))
        rw [if_neg ha]
        have h2 : i + 1 + idxIn t w = i + (idxIn t w + 1) := by omega
        rw [h2]
      · have hwt : w ∉ a :: t := by
          intro hc
          rcases List.mem_cons.mp hc with h' | h'
          · exact ha h'.symm
          · exact hw h'
        rw [if_neg hw, if_neg hwt]

theorem idxIn_append_of_mem {s : List String} {w : String} (h : w ∈ s)
    (t : List String) : idxIn (s ++ t) w = idxIn s w := by
  induction s with
  | nil => cases h
  | cons a s ih =>
    rw [List.cons_append]
    show (if a = w then 0 else idxIn (s ++ t) w + 1)
        = (if a = w then 0 else idxIn s w + 1)
    by_cases ha : a = w
    · rw [if_pos ha, if_pos ha]
    · have hs : w ∈ s := by
        rcases List.mem_cons.mp h with h' | h'
        · exact absurd h'.symm ha
        · exact h'
      rw [if_neg ha, if_neg ha, ih hs]

theorem idxIn_append_self {s : List String} {w : String} (h : w ∉ s)
    (t : List String) : idxIn (s ++ w :: t) w = s.length := by
  induction s with
  | nil => simp [idxIn]
  | cons a s ih =>
    rw [List.cons_append]
    show (if a = w then 0 else idxIn (s ++ w :: t) w + 1) = s.length + 1
    have ha : ¬a = w := fun e => h (List.mem_cons.mpr (Or.inl e.symm))
    rw [if_neg ha, ih (fun hw => h (List.mem_cons_of_mem a hw))]

/-- The central tokenizer invariant: running the `populate` loop from a
vocabulary holding the distinct words `seen` (with ids `0..seen.length`)
appends to the vocabulary exactly the not-yet-seen retained words in
first-occurrence order, and appends to the encoded corpus the index of
each retained token's word in the final distinct-word list. -/
theorem populateGo_invariant (stop : List String) (ws : List String) :
    ∀ (seen : List String) (v : List ℕ),
      populateGo stop ws (withIds seen 0) v seen.length =
        (withIds (seen ++ newWords seen (retainedBy stop ws)) 0,
         v ++ (retainedBy stop ws).map
           (fun w => idxIn (seen ++ newWords seen (retainedBy stop ws)) w)) := by
  induction ws with
  | nil => intro seen v; simp [populateGo, newWords, retainedBy]
  | cons w ws ih =>
    intro seen v
    by_cases hstop : w ∈ stop
    · have hr : retainedBy stop (w :: ws) = retainedBy stop ws := by
        show (if w ∈ stop then retainedBy stop ws else w :: retainedBy stop ws) = _
        rw [if_pos hstop]
      have hstep : populateGo stop (w :: ws) (withIds seen 0) v seen.length
          = populateGo stop ws (withIds seen 0) v seen.length := by
        simp only [populateGo, if_pos hstop]
      rw [hstep, hr]
      exact ih seen v
    · have hr : retainedBy stop (w :: ws) = w :: retainedBy stop ws := by
        show (if w ∈ stop then retainedBy stop ws else w :: retainedBy stop ws) = _
        rw [if_neg hstop]
      by_cases hseen : w ∈ seen
      · have hstep : populateGo stop (w :: ws) (withIds seen 0) v seen.length
            = populateGo stop ws (withIds seen 0) (v ++ [idxIn seen w]) seen.length := by
          simp only [populateGo, if_neg hstop, lookupIn_withIds, if_pos hseen,
            Nat.zero_add]
        have hnw : newWords seen (w :: retainedBy stop ws)
            = newWords seen (retainedBy stop ws) := by
          show (if w ∈ seen then _ else _) = _
          rw [if_pos hseen]
        rw [hstep, ih seen (v ++ [idxIn seen w]), hr, hnw, List.map_cons,
          idxIn_append_of_mem hseen]
        simp [List.append_assoc]
      · have hstep : populateGo stop (w :: ws) (withIds seen 0) v seen.length
            = populateGo stop ws (withIds seen 0 ++ [(w, seen.length)])
                (v ++ [seen.length]) (seen.length + 1) := by
          simp only [populateGo, if_neg hstop, lookupIn_withIds, if_neg hseen]
        have hm : withIds seen 0 ++ [(w, seen.length)] = withIds (seen ++ [w]) 0 := by
          rw [withIds_append]
          simp [withIds]
        have hlen : seen.length + 1 = (seen ++ [w]).length := by simp
        have hnw : newWords seen (w :: retainedBy stop ws)
            = w :: newWords (seen ++ [w]) (retainedBy stop ws) := by
          show (if w ∈ seen then _ else _) = _
          rw [if_neg hseen]
        have hlist : (seen ++ [w]) ++ newWords (seen ++ [w]) (retainedBy stop ws)
            = seen ++ w :: newWords (seen ++ [w]) (retainedBy stop ws) := by
          simp
        have hidx : idxIn (seen ++ w :: newWords (seen ++ [w]) (retainedBy stop ws)) w
            = seen.length := idxIn_append_self hseen _
        rw [hstep, hm, hlen, ih (seen ++ [w]) (v ++ [seen.length]), hr, hnw,
          hlist, List.map_cons, hidx]
        simp [List.append_assoc]

/-- Claim C6: the tokenizer assigns ids sequentially from `0` in order of
first occurrence of retained (non-stop-word) tokens, and repeated tokens
reuse their existing id — the vocabulary produced by `populate` is the
first-occurrence-deduplicated retained token list paired with ids
`0, 1, 2, ...`, and each encoded-corpus entry is its token's index in that
list. In particular `parse_corpus` on `"uno and dos tres uno cinco"`, with
`"and"` a stop word and the four remaining words not stop words, yields
the vocabulary `{uno ↦ 0, dos ↦ 1, tres ↦ 2, cinco ↦ 3}` and the encoded
corpus `[0, 1, 2, 0, 3]`. -/
theorem parse_corpus_spec :
    (∀ (stop words : List String),
      populate stop words =
        (withIds (newWords [] (retainedBy stop words)) 0,
         (retainedBy stop words).map
           (fun w => idxIn (newWords [] (retainedBy stop words)) w))) ∧
    (∀ stop : List String, "and" ∈ stop → "uno" ∉ stop → "dos" ∉ stop →
      "tres" ∉ stop → "cinco" ∉ stop →
      parse_corpus stop "uno and dos tres uno cinco" =
        ([("uno", 0), ("dos", 1), ("tres", 2), ("cinco", 3)], [0, 1, 2, 0, 3])) := by
  constructor
  · intro stop words
    have h := populateGo_invariant stop words [] []
    simpa [populate, withIds] using h
  · intro stop h1 h2 h3 h4 h5
    have hsplit : split_words (parse_clean "uno and dos tres uno cinco")
        = ["uno", "and", "dos", "tres", "uno", "cinco"] := by decide
    rw [parse_corpus, hsplit]
    show populateGo stop ["uno", "and", "dos", "tres", "uno", "cinco"] [] [] 0 = _
    simp [populateGo, lookupIn, h1, h2, h3, h4, h5]

/-- Witness for claim C6 with the concrete stop-word list `["and"]`. -/
theorem parse_corpus_spec_witness :
    ("and" ∈ (["and"] : List String)) ∧
    parse_corpus ["and"] "uno and dos tres uno cinco" =
      ([("uno", 0), ("dos", 1), ("tres", 2), ("cinco", 3)], [0, 1, 2, 0, 3]) :=
  ⟨by decide,
   parse_corpus_spec.2 ["and"] (by decide) (by decide) (by decide) (by decide) (by decide)⟩

/-- Helper: `List.getD` is the defaulted `List.get?`. -/
theorem getD_eq_get?_getD {α : Type} (l : List α) (n : ℕ) (d : α) :
    l.getD n d = (l.get? n).getD d := by
  induction l generalizing n with
  | nil => cases n <;> rfl
  | cons a t ih => cases n with
    | zero => rfl
    | succ m => simpa using ih m

/-- Claim C1, counterexample: the negative sampler does return the true
target id. With true target `1` and drawn corpus entries `[0, 1]`,
`get_random_indices` returns `[1]`, which contains an id equal to the
target — refuting the claim that every returned id differs from the true
target. -/
theorem get_random_indices_counterexample :
    get_random_indices 1 [0, 1] = [1] ∧
      ¬ (∀ x ∈ get_random_indices 1 [0, 1], x ≠ 1) := by
  constructor
  · rfl
  · intro h
    exact h 1 (by decide) rfl

/-- Claim C1, amended: the filter in `get_random_indices` keeps exactly the
drawn ids that are EQUAL to the true target, so every id in the returned
list equals the true target (the inverse of the claimed exclusion), for
every target and every drawn multiset. -/
theorem get_random_indices_all_eq_target (target : ℕ) (chosen : List ℕ) :
    ∀ x ∈ get_random_indices target chosen, x = target := by
  intro x hx
  have hx' : x ∈ chosen.filter (fun y => y == target) := hx
  exact eq_of_beq (List.mem_filter.mp hx').2

/-- Witness for the amended claim C1 at a concrete input. -/
theorem get_random_indices_all_eq_target_witness :
    (1 ∈ get_random_indices 1 [0, 1]) ∧ 1 = 1 :=
  ⟨by decide, get_random_indices_all_eq_target 1 [0, 1] 1 (by decide)⟩

/-- Claim C2: over a corpus of length `L` with window size `2*w+1` (the
invariant established by `CBOWParams::set_window_size` and `default`,
which also set `target = w`), `generate_pairs` yields `L - (2*w+1) + 1`
pairs when `L ≥ 2*w+1` and the empty list when `L < 2*w+1` (no panic);
the `i`-th pair has as target the element at offset `w` of its window
(i.e. `corpus[i+w]`) and as context the remaining `2*w` window elements in
their original relative order; and over `[0,1,2,0,3]` with half-window `2`
it yields exactly the single pair `([0,1,0,3], 2)`. -/
theorem generate_pairs_spec (w : ℕ) (corpus : List ℕ) :
    (2 * w + 1 ≤ corpus.length →
      (generate_pairs (2 * w + 1) w corpus).length
        = corpus.length - (2 * w + 1) + 1) ∧
    (corpus.length < 2 * w + 1 →
      generate_pairs (2 * w + 1) w corpus = []) ∧
    (∀ i, i + (2 * w + 1) ≤ corpus.length →
      (generate_pairs (2 * w + 1) w corpus).get? i =
        some (((corpus.drop i).take w) ++ ((corpus.drop (i + w + 1)).take w),
              corpus.getD (i + w) 0)) ∧
    generate_pairs 5 2 [0, 1, 2, 0, 3] = [([0, 1, 0, 3], 2)] := by
  refine ⟨?_, ?_, ?_, by decide⟩
  · intro hlen
    simp only [generate_pairs, windowsList, List.length_map, List.length_range]
    omega
  · intro hlen
    simp only [generate_pairs, windowsList]
    have : corpus.length + 1 - (2 * w + 1) = 0 := by omega
    rw [this]
    rfl
  · intro i hi
    have hrange : i < corpus.length + 1 - (2 * w + 1) := by omega
    simp only [generate_pairs, windowsList, List.get?_map, List.get?_range hrange,
      Option.map_some']
    have hwin : ((corpus.drop i).take (2 * w + 1)).eraseIdx w
        = ((corpus.drop i).take w) ++ ((corpus.drop (i + w + 1)).take w) := by
      rw [List.eraseIdx_eq_take_drop_succ, List.take_take, min_eq_left (by omega),
        List.drop_take, List.drop_drop]
      have h1 : i + (w + 1) = i + w + 1 := by omega
      have h2 : 2 * w + 1 - (w + 1) = w := by omega
      rw [h1, h2]
    have hget : ((corpus.drop i).take (2 * w + 1)).getD w 0
        = corpus.getD (i + w) 0 := by
      rw [getD_eq_get?_getD, getD_eq_get?_getD,
        List.get?_take (by omega : w < 2 * w + 1), List.get?_drop]
    rw [hwin, hget]

/-- Witness for claim C2 at the concrete corpus `[0,1,2,0,3]` with
half-window `2`. -/
theorem generate_pairs_spec_witness :
    (2 * 2 + 1 ≤ 5) ∧
    (generate_pairs (2 * 2 + 1) 2 [0, 1, 2, 0, 3]).length = 5 - (2 * 2 + 1) + 1 ∧
    (generate_pairs (2 * 2 + 1) 2 [0, 1, 2, 0, 3]).get? 0 =
      some ((([0, 1, 2, 0, 3] : List ℕ).drop 0).take 2
              ++ (([0, 1, 2, 0, 3] : List ℕ).drop 3).take 2,
            ([0, 1, 2, 0, 3] : List ℕ).getD 2 0) := by
  refine ⟨by decide, (generate_pairs_spec 2 [0, 1, 2, 0, 3]).1 (by decide), ?_⟩
  have h := (generate_pairs_spec 2 [0, 1, 2, 0, 3]).2.2.1 0 (by decide)
  simpa using h

theorem addAtRange_succ {α : Type} [LinearOrderedField α] (D off : ℕ)
    (delta : ℕ → α) (h : ℕ → α) :
    addAtRange (D + 1) off delta h
      = updAt (addAtRange D off delta h) (D + off)
          (addAtRange D off delta h (D + off) + delta D) := by
  simp [addAtRange, List.range_succ]

theorem addAtRange_out {α : Type} [LinearOrderedField α] (delta h : ℕ → α)
    (off : ℕ) : ∀ (D q : ℕ), (∀ c, c < D → q ≠ c + off) →
    addAtRange D off delta h q = h q := by
  intro D
  induction D with
  | zero => intro q _; rfl
  | succ D ih =>
    intro q hq
    rw [addAtRange_succ]
    have hne : q ≠ D + off := hq D (by omega)
    show (if q = D + off then _ else addAtRange D off delta h q) = h q
    rw [if_neg hne]
    exact ih q (fun c hc => hq c (by omega))

theorem addAtRange_at {α : Type} [LinearOrderedField α] (delta h : ℕ → α)
    (off : ℕ) : ∀ (D c : ℕ), c < D →
    addAtRange D off delta h (c + off) = h (c + off) + delta c := by
  intro D
  induction D with
  | zero => intro c hc; omega
  | succ D ih =>
    intro c hc
    rw [addAtRange_succ]
    by_cases hcD : c = D
    · subst hcD
      show (if c + off = c + off then _ else _) = _
      rw [if_pos rfl,
        addAtRange_out delta h off c (c + off) (fun e he => by omega)]
    · show (if c + off = D + off then _ else addAtRange D off delta h (c + off)) = _
      rw [if_neg (by omega), ih c (by omega)]

/-- Uniqueness of the flattened-index decomposition: entries of distinct
rows occupy distinct flattened positions. -/
theorem rowcol_ne {D d c i j : ℕ} (hd : d < D) (hc : c < D) (hij : i ≠ j) :
    d + i * D ≠ c + j * D := by
  intro he
  rcases Nat.lt_or_ge i j with h | h
  · have h1 : (i + 1) * D ≤ j * D := Nat.mul_le_mul_right D h
    rw [Nat.succ_mul] at h1
    omega
  · have hj : j < i := by omega
    have h1 : (j + 1) * D ≤ i * D := Nat.mul_le_mul_right D hj
    rw [Nat.succ_mul] at h1
    omega

/-- Claim C5: in the backward step, every occurrence of a context id adds
the full error buffer to that id's input-matrix row — the entry at
dimension `d` of row `i` grows by `count(i in context) * neu1e[d]`, so a
context id occurring `k` times receives the addition `k` times, and the
rows of ids not occurring in the context list are left unchanged. -/
theorem train_backward_update_spec {α : Type} [LinearOrderedField α]
    (D : ℕ) (context : List ℕ) (neu1e input_layer : ℕ → α) (i d : ℕ)
    (hd : d < D) :
    backwardUpdate D context neu1e input_layer (d + i * D)
        = input_layer (d + i * D) + (context.count i : α) * neu1e d
    ∧ (i ∉ context →
        backwardUpdate D context neu1e input_layer (d + i * D)
          = input_layer (d + i * D)) := by
  have main : ∀ (ctx : List ℕ) (inp : ℕ → α),
      backwardUpdate D ctx neu1e inp (d + i * D)
        = inp (d + i * D) + (ctx.count i : α) * neu1e d := by
    intro ctx
    induction ctx with
    | nil => intro inp; simp [backwardUpdate]
    | cons j ctx ih =>
      intro inp
      have hstep : backwardUpdate D (j :: ctx) neu1e inp
          = backwardUpdate D ctx neu1e (addAtRange D (j * D) neu1e inp) := rfl
      rw [hstep, ih]
      by_cases hji : j = i
      · subst hji
        rw [addAtRange_at neu1e inp (j * D) D d hd]
        have hcount : (j :: ctx).count j = ctx.count j + 1 :=
          List.count_cons_self j ctx
        rw [hcount]
        push_cast
        ring
      · rw [addAtRange_out neu1e inp (j * D) D (d + i * D)
          (fun c hc => rowcol_ne hd hc (fun e => hji e.symm))]
        have hij' : ¬i = j := fun e => hji e.symm
        have hcount : (j :: ctx).count i = ctx.count i := by
          rw [List.count_cons]
          simp [hij', hji]
        rw [hcount]
  refine ⟨main context input_layer, fun hnot => ?_⟩
  rw [main context input_layer, List.count_eq_zero_of_not_mem hnot]
  push_cast
  ring

/-- Witness for claim C5: dimension 1, context `[0, 0]` (the id `0` twice),
unit error buffer, zero input matrix. -/
theorem train_backward_update_spec_witness :
    (0 < 1) ∧
    (backwardUpdate 1 [0, 0] (fun _ => (1 : ℚ)) (fun _ => 0) (0 + 0 * 1)
        = (fun _ => (0 : ℚ)) (0 + 0 * 1)
          + (([0, 0] : List ℕ).count 0 : ℚ) * (fun _ => (1 : ℚ)) 0)
    ∧ ((0 : ℕ) ∉ ([0, 0] : List ℕ) →
        backwardUpdate 1 [0, 0] (fun _ => (1 : ℚ)) (fun _ => 0) (0 + 0 * 1)
          = (fun _ => (0 : ℚ)) (0 + 0 * 1)) :=
  ⟨by norm_num,
   train_backward_update_spec 1 [0, 0] (fun _ => (1 : ℚ)) (fun _ => 0) 0 0
     (by norm_num)⟩

/-- Claim C4: the positive update of `train` computes the logit `f` from
`neu1` and the target's output row, sets `g = (1 - sigmoid f) *
learning_rate`, initialises the error buffer from the PRE-update output
row (`neu1e[d] = g * output[t*D + d]`), and only then bumps the output
row by `g * neu1[d]`, for every dimension `d < D`. -/
theorem train_positive_update_spec (D : ℕ) (learning_rate : ℝ)
    (neu1 hidden_layer : ℕ → ℝ) (target d : ℕ) (hd : d < D) :
    (positiveUpdate sigmoid D learning_rate neu1 target hidden_layer).1 d
        = (1 - sigmoid (((List.range D).map
              (fun i => neu1 i * hidden_layer (i + target * D))).sum))
            * learning_rate * hidden_layer (d + target * D)
    ∧ (positiveUpdate sigmoid D learning_rate neu1 target hidden_layer).2
          (d + target * D)
        = hidden_layer (d + target * D)
          + (1 - sigmoid (((List.range D).map
                (fun i => neu1 i * hidden_layer (i + target * D))).sum))
              * learning_rate * neu1 d := by
  constructor
  · simp only [positiveUpdate]
  · simp only [positiveUpdate]
    rw [addAtRange_at _ hidden_layer (target * D) D d hd]

/-- Witness for claim C4 at dimension 1, learning rate 1, unit context
embedding, zero output matrix, target id 0. -/
theorem train_positive_update_spec_witness :
    (0 < 1) ∧
    ((positiveUpdate sigmoid 1 (1 : ℝ) (fun _ => 1) 0 (fun _ => 0)).1 0
        = (1 - sigmoid (((List.range 1).map
              (fun i => (fun _ => (1 : ℝ)) i * (fun _ => (0 : ℝ)) (i + 0 * 1))).sum))
            * 1 * (fun _ => (0 : ℝ)) (0 + 0 * 1))
    ∧ ((positiveUpdate sigmoid 1 (1 : ℝ) (fun _ => 1) 0 (fun _ => 0)).2 (0 + 0 * 1)
        = (fun _ => (0 : ℝ)) (0 + 0 * 1)
          + (1 - sigmoid (((List.range 1).map
                (fun i => (fun _ => (1 : ℝ)) i * (fun _ => (0 : ℝ)) (i + 0 * 1))).sum))
              * 1 * (fun _ => (1 : ℝ)) 0) :=
  ⟨by norm_num,
   train_positive_update_spec 1 1 (fun _ => 1) (fun _ => 0) 0 0 (by norm_num)⟩

theorem get?_eq_some_getD {α : Type} (l : List α) (k : ℕ) (dflt : α)
    (h : k < l.length) : l.get? k = some (l.getD k dflt) := by
  rw [getD_eq_get?_getD]
  cases hk : l.get? k with
  | none =>
    have := List.get?_eq_none.mp hk
    omega
  | some x => rfl

theorem sumRowOpt_some {α : Type} [LinearOrderedField α]
    (embeddings : List α) (D pos : ℕ) :
    ∀ context : List ℕ,
      (∀ ci ∈ context, pos + ci * D < embeddings.length) →
      sumRowOpt embeddings D pos context
        = some ((context.map (fun ci => embeddings.getD (pos + ci * D) 0)).sum) := by
  intro context
  induction context with
  | nil => intro _; simp [sumRowOpt]
  | cons a t ih =>
    intro h
    have ha : pos + a * D < embeddings.length := h a (List.mem_cons_self a t)
    rw [sumRowOpt, get?_eq_some_getD embeddings (pos + a * D) 0 ha,
      ih (fun ci hci => h ci (List.mem_cons_of_mem a hci))]
    simp

theorem sumRowOpt_none {α : Type} [LinearOrderedField α]
    (embeddings : List α) (D pos : ℕ) :
    ∀ context : List ℕ,
      (∃ ci ∈ context, embeddings.length ≤ pos + ci * D) →
      sumRowOpt embeddings D pos context = none := by
  intro context
  induction context with
  | nil => rintro ⟨ci, hci, _⟩; cases hci
  | cons a t ih =>
    rintro ⟨ci, hci, hlen⟩
    rcases List.mem_cons.mp hci with rfl | hmem
    · have hnone : embeddings.get? (pos + ci * D) = none :=
        List.get?_eq_none.mpr hlen
      rw [sumRowOpt, hnone]
    · rw [sumRowOpt, ih ⟨ci, hmem, hlen⟩]
      cases embeddings.get? (pos + a * D) <;> rfl

theorem collectRows_some {α : Type} [LinearOrderedField α]
    (context : List ℕ) (D : ℕ) (embeddings : List α) :
    ∀ poss : List ℕ,
      (∀ p ∈ poss, ∀ ci ∈ context, p + ci * D < embeddings.length) →
      collectRows context D embeddings poss
        = some (poss.map
            (fun p => (context.map (fun ci => embeddings.getD (p + ci * D) 0)).sum)) := by
  intro poss
  induction poss with
  | nil => intro _; simp [collectRows]
  | cons p ps ih =>
    intro h
    rw [collectRows,
      sumRowOpt_some embeddings D p context (h p (List.mem_cons_self p ps)),
      ih (fun q hq => h q (List.mem_cons_of_mem p hq))]
    simp

theorem collectRows_none {α : Type} [LinearOrderedField α]
    (context : List ℕ) (D : ℕ) (embeddings : List α) :
    ∀ poss : List ℕ, ∀ p ∈ poss,
      sumRowOpt embeddings D p context = none →
      collectRows context D embeddings poss = none := by
  intro poss
  induction poss with
  | nil => intro p hp; cases hp
  | cons q ps ih =>
    intro p hp hnone
    rcases List.mem_cons.mp hp with rfl | hmem
    · rw [collectRows, hnone]
    · rw [collectRows, ih p hmem hnone]
      cases sumRowOpt embeddings D q context <;> rfl

/-- Claim C3: `get_context_embedding` is a plain dimension-wise sum of the
context rows — whenever every computed index is in bounds it returns the
vector of length `D` whose `d`-th entry is
`Σ_{ci ∈ context} embeddings[d + ci * D]` (a sum, not an average). -/
theorem get_context_embedding_sum {α : Type} [LinearOrderedField α]
    (context : List ℕ) (D : ℕ) (embeddings : List α)
    (h : ∀ ci ∈ context, ∀ d, d < D → d + ci * D < embeddings.length) :
    ∃ v, get_context_embedding context D embeddings = some v
      ∧ v.length = D
      ∧ ∀ d, d < D → v.get? d
          = some ((context.map (fun ci => embeddings.getD (d + ci * D) 0)).sum) := by
  refine ⟨(List.range D).map
      (fun p => (context.map (fun ci => embeddings.getD (p + ci * D) 0)).sum),
    ?_, by simp, ?_⟩
  · exact collectRows_some context D embeddings (List.range D)
      (fun p hp ci hci => h ci hci p (List.mem_range.mp hp))
  · intro d hdD
    rw [List.get?_map, List.get?_range hdD, Option.map_some']

/-- Witness for claim C3: the `test_get_context_embedding` fixture, with
dimension 4, context ids `[0, 1, 3, 4]` and the 5x4 flattened matrix
`fixtureEmb`; the result is the element-wise sum of the four rows. -/
theorem get_context_embedding_sum_witness :
    (∀ ci ∈ ([0, 1, 3, 4] : List ℕ), ∀ d, d < 4 → d + ci * 4 < fixtureEmb.length)
    ∧ ∃ v, get_context_embedding [0, 1, 3, 4] 4 fixtureEmb = some v
        ∧ v.length = 4
        ∧ ∀ d, d < 4 → v.get? d
            = some ((([0, 1, 3, 4] : List ℕ).map
                (fun ci => fixtureEmb.getD (d + ci * 4) 0)).sum) :=
  ⟨by decide, get_context_embedding_sum [0, 1, 3, 4] 4 fixtureEmb (by decide)⟩

/-- Claim C10: if every context id is below `vocab_size` and the flattened
embeddings buffer has length `vocab_size * embeddings_dimension`, every
index `position + ci * embeddings_dimension` computed by
`get_context_embedding` is in bounds and the function returns a value
(never hits its out-of-bounds panic, modelled as `none`); the access is
otherwise unguarded, so (for a positive dimension) a context id at or
above `vocab_size` makes every access of that id's row out of bounds and
the function panics. -/
theorem get_context_embedding_bounds {α : Type} [LinearOrderedField α]
    (vocab_size D : ℕ) (context : List ℕ) (embeddings : List α)
    (hlen : embeddings.length = vocab_size * D) :
    ((∀ ci ∈ context, ci < vocab_size) →
      (∀ ci ∈ context, ∀ pos, pos < D → pos + ci * D < vocab_size * D)
      ∧ ∃ v, get_context_embedding context D embeddings = some v)
    ∧ (0 < D → (∃ ci ∈ context, vocab_size ≤ ci) →
        get_context_embedding context D embeddings = none) := by
  constructor
  · intro hctx
    have hb : ∀ ci ∈ context, ∀ pos, pos < D → pos + ci * D < vocab_size * D := by
      intro ci hci pos hpos
      have h1 : (ci + 1) * D ≤ vocab_size * D :=
        Nat.mul_le_mul_right D (hctx ci hci)
      rw [Nat.succ_mul] at h1
      omega
    refine ⟨hb, ?_⟩
    have := collectRows_some context D embeddings (List.range D)
      (fun p hp ci hci => by
        rw [hlen]
        exact hb ci hci p (List.mem_range.mp hp))
    exact ⟨_, this⟩
  · rintro hD ⟨ci, hci, hvs⟩
    have hout : embeddings.length ≤ 0 + ci * D := by
      rw [hlen, Nat.zero_add]
      exact Nat.mul_le_mul_right D hvs
    exact collectRows_none context D embeddings (List.range D) 0
      (List.mem_range.mpr hD)
      (sumRowOpt_none embeddings D 0 context ⟨ci, hci, hout⟩)

/-- Witness for claim C10 over `fixtureEmb` (`vocab_size = 5`, dimension
4): the in-bounds context `[0, 1, 3, 4]` yields a value, while the
out-of-vocabulary context `[5]` panics (`none`). -/
theorem get_context_embedding_bounds_witness :
    fixtureEmb.length = 5 * 4
    ∧ (∃ v, get_context_embedding [0, 1, 3, 4] 4 fixtureEmb = some v)
    ∧ get_context_embedding [5] 4 fixtureEmb = none :=
  ⟨by decide,
   ((get_context_embedding_bounds 5 4 [0, 1, 3, 4] fixtureEmb (by decide)).1
     (by decide)).2,
   (get_context_embedding_bounds 5 4 [5] fixtureEmb (by decide)).2
     (by decide) ⟨5, by decide, by decide⟩⟩

/-- Claim C7: `create_matrices` returns two flattened matrices of equal
length `vocab_size * embeddings_dimension`, and every entry of the second
(output) matrix is exactly `0.0`, for every vocabulary size, dimension
and sample stream. -/
theorem create_matrices_spec {α : Type} [LinearOrderedField α]
    (vocab_size embeddings_dimension : ℕ) (sample : ℕ → α) :
    (create_matrices vocab_size embeddings_dimension sample).1.length
        = vocab_size * embeddings_dimension
    ∧ (create_matrices vocab_size embeddings_dimension sample).2.length
        = vocab_size * embeddings_dimension
    ∧ ∀ x ∈ (create_matrices vocab_size embeddings_dimension sample).2, x = 0 := by
  refine ⟨?_, by simp [create_matrices], fun x hx => List.eq_of_mem_replicate hx⟩
  simp only [create_matrices, List.length_join, List.map_map]
  have hconst : (List.range vocab_size).map
      (List.length ∘ fun i => (List.range embeddings_dimension).map
        (fun j => sample (i * embeddings_dimension + j)))
      = (List.range vocab_size).map (fun _ => embeddings_dimension) := by
    apply List.map_congr_left
    intro i _
    simp
  rw [hconst, List.map_const', List.sum_replicate, List.length_range,
    smul_eq_mul]

/-- Witness for claim C7 at `vocab_size = 2`, `embeddings_dimension = 3`,
constant sample stream. -/
theorem create_matrices_spec_witness :
    (create_matrices 2 3 (fun _ => (1 : ℚ))).1.length = 2 * 3
    ∧ (create_matrices 2 3 (fun _ => (1 : ℚ))).2.length = 2 * 3
    ∧ ((0 : ℚ) ∈ (create_matrices 2 3 (fun _ => (1 : ℚ))).2 ∧ (0 : ℚ) = 0) := by
  have h := create_matrices_spec 2 3 (fun _ => (1 : ℚ))
  exact ⟨h.1, h.2.1, by decide, h.2.2 0 (by decide)⟩

/-- Claim C9: the sigmoid of the source is the standard logistic function:
it satisfies `sigmoid 0 = 1/2`, is monotone non-decreasing, and its value
lies strictly within the open interval `(0, 1)` for every input (stated
for the exact real idealisation of the `f32` arithmetic). -/
theorem sigmoid_spec (x y : ℝ) :
    sigmoid 0 = 1 / 2
    ∧ (x ≤ y → sigmoid x ≤ sigmoid y)
    ∧ 0 < sigmoid x ∧ sigmoid x < 1 := by
  have hpos : ∀ z : ℝ, 0 < 1 + Real.exp (-z) := by
    intro z
    have := Real.exp_pos (-z)
    linarith
  refine ⟨?_, ?_, ?_, ?_⟩
  · rw [sigmoid]
    norm_num
  · intro hxy
    have h1 : Real.exp (-y) ≤ Real.exp (-x) := Real.exp_le_exp.mpr (by linarith)
    have h2 := one_div_le_one_div_of_le (hpos y) (by linarith :
      1 + Real.exp (-y) ≤ 1 + Real.exp (-x))
    rw [sigmoid, sigmoid]
    exact h2
  · rw [sigmoid]
    exact one_div_pos.mpr (hpos x)
  · rw [sigmoid]
    rw [div_lt_one (hpos x)]
    have := Real.exp_pos (-x)
    linarith

/-- Witness for claim C9 at the concrete pair `x = 0 ≤ 1 = y`. -/
theorem sigmoid_spec_witness :
    ((0 : ℝ) ≤ 1)
    ∧ (sigmoid 0 = 1 / 2
       ∧ ((0 : ℝ) ≤ 1 → sigmoid 0 ≤ sigmoid 1)
       ∧ 0 < sigmoid 0 ∧ sigmoid 0 < 1) :=
  ⟨by norm_num, sigmoid_spec 0 1⟩
